import Mathlib

/-!
Verification of the mean-pooling / L2-normalization core of the
`inference.py` script in `sagemaker/17_custom_inference_script`
(huggingbooks repository).

The script defines

  def mean_pooling(model_output, attention_mask):
      token_embeddings = model_output[0]
      input_mask_expanded = attention_mask.unsqueeze(-1).expand(token_embeddings.size()).float()
      return torch.sum(token_embeddings * input_mask_expanded, 1) / torch.clamp(input_mask_expanded.sum(1), min=1e-9)

  def predict_fn(data, model_and_tokenizer):
      model, tokenizer = model_and_tokenizer
      sentences = data.pop("inputs", data)
      encoded_input = tokenizer(sentences, padding=True, truncation=True, return_tensors='pt')
      with torch.no_grad():
          model_output = model(**encoded_input)
      sentence_embeddings = mean_pooling(model_output, encoded_input['attention_mask'])
      sentence_embeddings = F.normalize(sentence_embeddings, p=2, dim=1)
      return {"vectors": sentence_embeddings[0].tolist()}

Tensors are embedded as shape-carrying structures over a linear ordered
field (instantiated at ℝ, the exact idealization of the script's
floating-point values); `torch.Tensor.expand` broadcasting,
`torch.clamp(·, min=c)` and `torch.nn.functional.normalize` (p=2, dim=1,
default eps=1e-12) follow their documented PyTorch semantics.  Failures the
script would raise as Python exceptions (a `RuntimeError` from `expand` on
incompatible shapes, an `IndexError` from `[0]` on an empty batch) are
embedded as `Option.none`.
-/

namespace HuggingBooks

/-- A two-dimensional tensor of shape `(nrows, ncols)`: the embedding of a
`torch` matrix such as the attention mask or the pooled-embedding batch.
Entries outside the index range are irrelevant padding of the model. -/
structure Mat (α : Type) where
  nrows : ℕ
  ncols : ℕ
  entry : ℕ → ℕ → α

/-- A three-dimensional tensor of shape `(nbatch, nseq, ndim)`: the embedding
of the token-embedding batch `model_output[0]`. -/
structure Ten3 (α : Type) where
  nbatch : ℕ
  nseq : ℕ
  ndim : ℕ
  entry : ℕ → ℕ → ℕ → α

/-- Build a matrix from a rectangular list of lists (entries outside the
given data are 0); used for concrete inputs. -/
def Mat.ofList {α : Type} [Zero α] (xs : List (List α)) : Mat α where
  nrows := xs.length
  ncols := (xs.headI).length
  entry := fun b l => ((xs.getD b []).getD l 0)

/-- Build a 3-tensor from a rectangular nested list; used for concrete
inputs. -/
def Ten3.ofList {α : Type} [Zero α] (xs : List (List (List α))) : Ten3 α where
  nbatch := xs.length
  nseq := (xs.headI).length
  ndim := ((xs.headI).headI).length
  entry := fun b l d => (((xs.getD b []).getD l []).getD d 0)

variable {α : Type} [LinearOrderedField α]

/-- The clamp floor `1e-9` used in `mean_pooling`'s denominator. -/
def poolEps (α : Type) [LinearOrderedField α] : α := 1e-9

/-- Semantics of `attention_mask.unsqueeze(-1).expand(B, L, D)`:
`unsqueeze(-1)` gives shape `(nrows, ncols, 1)`, and `expand` succeeds iff
each source dimension equals the target or equals 1 (in which case it is
broadcast); on incompatible shapes `expand` raises, embedded as `none`.
The expanded tensor is constant along the last axis, so it is returned as a
function of the first two indices. -/
def expandMask (mask : Mat α) (B L : ℕ) : Option (ℕ → ℕ → α) :=
  if (mask.nrows = B ∨ mask.nrows = 1) ∧ (mask.ncols = L ∨ mask.ncols = 1) then
    some (fun b l =>
      mask.entry (if mask.nrows = 1 then 0 else b) (if mask.ncols = 1 then 0 else l))
  else
    none

/-- Embedding of `mean_pooling`: expand the mask to the token-embedding
shape, then return
`torch.sum(token_embeddings * input_mask_expanded, 1)
  / torch.clamp(input_mask_expanded.sum(1), min=1e-9)`.
Both reductions are over the sequence axis (dim 1); `clamp(x, min=c)` is
`max x c`. -/
def mean_pooling (emb : Ten3 α) (mask : Mat α) : Option (Mat α) :=
  (expandMask mask emb.nbatch emb.nseq).map (fun m =>
    { nrows := emb.nbatch
      ncols := emb.ndim
      entry := fun b d =>
        (∑ l ∈ Finset.range emb.nseq, emb.entry b l d * m b l) /
          max (∑ l ∈ Finset.range emb.nseq, m b l) (poolEps α) })

/-- The default `eps=1e-12` of `torch.nn.functional.normalize`. -/
def normEps : ℝ := 1e-12

/-- Euclidean norm of the first `n` components of a vector. -/
noncomputable def l2norm (v : ℕ → ℝ) (n : ℕ) : ℝ :=
  Real.sqrt (∑ d ∈ Finset.range n, v d ^ 2)

/-- Embedding of `F.normalize(x, p=2, dim=1)`: each entry is divided by
`max (‖row‖₂) eps` with the default `eps = 1e-12`, the norm being taken
along dim 1 (the row of the `(B, D)` matrix). -/
noncomputable def F_normalize (x : Mat ℝ) : Mat ℝ where
  nrows := x.nrows
  ncols := x.ncols
  entry := fun b d => x.entry b d / max (l2norm (x.entry b) x.ncols) normEps

/-- A Python value as it appears in the request/response path of
`predict_fn`: strings, numbers, lists and string-keyed dicts. -/
inductive PyVal where
  | str : String → PyVal
  | real : ℝ → PyVal
  | list : List PyVal → PyVal
  | dict : List (String × PyVal) → PyVal

/-- A Python dict with string keys, embedded as an association list
(Python dicts have unique keys; `List.lookup` finds the binding). -/
abbrev PyDict := List (String × PyVal)

/-- Semantics of Python's `d.pop(k, default)`: if `k` is bound, return its
value and the dict with the binding for `k` removed (a mutation of `d`);
otherwise return `default` and leave `d` unchanged. -/
def dictPop (d : PyDict) (k : String) (dflt : PyVal) : PyVal × PyDict :=
  match d.lookup k with
  | some v => (v, d.filter (fun p => p.1 != k))
  | none => (dflt, d)

/-- The part of the tokenizer's output `encoded_input` that the rest of
`predict_fn` reads: the token ids (passed opaquely to the model) and the
attention mask. -/
structure EncodedInput where
  input_ids : List (List ℕ)
  attention_mask : Mat ℝ

/-- Embedding of `predict_fn`.  The external collaborators are parameters:
`tokenizer` maps the sentences value to `encoded_input`, and `model` maps
`encoded_input` to `model_output[0]` (the token-embedding tensor; the
projection `[0]` of the model's output tuple is folded into the parameter).
The function returns the response payload (`none` embeds an uncaught Python
exception: a shape error inside `mean_pooling`, or the `IndexError` of
`sentence_embeddings[0]` on an empty batch) together with the final state of
the caller-supplied `data` dict, which `data.pop("inputs", data)` may have
mutated. -/
noncomputable def predict_fn (tokenizer : PyVal → EncodedInput)
    (model : EncodedInput → Ten3 ℝ) (data : PyDict) : Option PyVal × PyDict :=
  let popped := dictPop data "inputs" (PyVal.dict data)
  let sentences := popped.1
  let encoded_input := tokenizer sentences
  let model_output := model encoded_input
  (match mean_pooling model_output encoded_input.attention_mask with
   | none => none
   | some pooled =>
      let sentence_embeddings := F_normalize pooled
      if sentence_embeddings.nrows = 0 then
        none
      else
        some (PyVal.dict [("vectors",
          PyVal.list ((List.range sentence_embeddings.ncols).map
            (fun d => PyVal.real (sentence_embeddings.entry 0 d))))]),
   popped.2)

end HuggingBooks

namespace HuggingBooks

variable {α : Type} [LinearOrderedField α]

/-- When the mask shape matches the embedding shape exactly, `expand`
succeeds and `mean_pooling` returns the quotient matrix (still written with
the broadcast index functions of `expandMask`). -/
theorem mean_pooling_eq_of_shapes (emb : Ten3 α) (mask : Mat α)
    (hB : mask.nrows = emb.nbatch) (hL : mask.ncols = emb.nseq) :
    mean_pooling emb mask = some
      { nrows := emb.nbatch
        ncols := emb.ndim
        entry := fun b d =>
          (∑ l ∈ Finset.range emb.nseq,
              emb.entry b l d *
                mask.entry (if mask.nrows = 1 then 0 else b)
                  (if mask.ncols = 1 then 0 else l)) /
            max (∑ l ∈ Finset.range emb.nseq,
                mask.entry (if mask.nrows = 1 then 0 else b)
                  (if mask.ncols = 1 then 0 else l)) (poolEps α) } := by
  unfold mean_pooling expandMask
  rw [if_pos ⟨Or.inl hB, Or.inl hL⟩]
  rfl

/-- Pointwise value of the pooled matrix, for in-range batch indices, when
the mask shape matches the embedding shape exactly. -/
theorem mean_pooling_entry {emb : Ten3 α} {mask : Mat α}
    (hB : mask.nrows = emb.nbatch) (hL : mask.ncols = emb.nseq)
    {p : Mat α} (hp : mean_pooling emb mask = some p)
    {b : ℕ} (hb : b < emb.nbatch) (d : ℕ) :
    p.entry b d =
      (∑ l ∈ Finset.range emb.nseq, emb.entry b l d * mask.entry b l) /
        max (∑ l ∈ Finset.range emb.nseq, mask.entry b l) (poolEps α) := by
  rw [mean_pooling_eq_of_shapes emb mask hB hL] at hp
  obtain rfl := (Option.some.inj hp).symm
  have ib : (if mask.nrows = 1 then 0 else b) = b := by
    split_ifs with h
    · omega
    · rfl
  have il : ∀ l < emb.nseq, (if mask.ncols = 1 then 0 else l) = l := by
    intro l hl
    split_ifs with h
    · omega
    · rfl
  have e1 : (∑ l ∈ Finset.range emb.nseq,
        emb.entry b l d *
          mask.entry (if mask.nrows = 1 then 0 else b)
            (if mask.ncols = 1 then 0 else l))
      = ∑ l ∈ Finset.range emb.nseq, emb.entry b l d * mask.entry b l :=
    Finset.sum_congr rfl fun l hl => by rw [ib, il l (Finset.mem_range.mp hl)]
  have e2 : (∑ l ∈ Finset.range emb.nseq,
        mask.entry (if mask.nrows = 1 then 0 else b)
          (if mask.ncols = 1 then 0 else l))
      = ∑ l ∈ Finset.range emb.nseq, mask.entry b l :=
    Finset.sum_congr rfl fun l hl => by rw [ib, il l (Finset.mem_range.mp hl)]
  dsimp only
  rw [e1, e2]

end HuggingBooks

namespace HuggingBooks

/-- C1: for every token-embedding batch of shape (B, L, D) and attention
mask of shape (B, L) with values in {0,1}, `mean_pooling` returns a (B, D)
matrix in which `pooled[b][d]` is the mask-weighted sum of embeddings over
the sequence axis divided by `max (Σ_l mask[b][l]) 1e-9`, the epsilon floor
being applied per row. -/
theorem c1_mean_pooling_formula (emb : Ten3 ℝ) (mask : Mat ℝ)
    (hB : mask.nrows = emb.nbatch) (hL : mask.ncols = emb.nseq)
    (hmask : ∀ b < mask.nrows, ∀ l < mask.ncols,
      mask.entry b l = 0 ∨ mask.entry b l = 1) :
    ∃ pooled : Mat ℝ, mean_pooling emb mask = some pooled ∧
      pooled.nrows = emb.nbatch ∧ pooled.ncols = emb.ndim ∧
      ∀ b < emb.nbatch, ∀ d : ℕ,
        pooled.entry b d =
          (∑ l ∈ Finset.range emb.nseq, emb.entry b l d * mask.entry b l) /
            max (∑ l ∈ Finset.range emb.nseq, mask.entry b l) (1e-9 : ℝ) := by
  refine ⟨_, mean_pooling_eq_of_shapes emb mask hB hL, rfl, rfl, ?_⟩
  intro b hb d
  simpa [poolEps] using
    mean_pooling_entry hB hL (mean_pooling_eq_of_shapes emb mask hB hL) hb d

/-- Witness for C1: the concrete batch [[[1,0],[3,0]]] with mask [[1,1]]
pools to the row [2, 0]. -/
theorem c1_mean_pooling_formula_witness :
    ∃ pooled : Mat ℝ,
      mean_pooling (Ten3.ofList [[[1,0],[3,0]]]) (Mat.ofList [[(1:ℝ),1]]) = some pooled ∧
      pooled.entry 0 0 = 2 ∧ pooled.entry 0 1 = 0 := by
  obtain ⟨pooled, hsome, -, -, hentry⟩ :=
    c1_mean_pooling_formula (Ten3.ofList [[[1,0],[3,0]]]) (Mat.ofList [[(1:ℝ),1]])
      rfl rfl
      (by intro b hb l hl
          norm_num [Mat.ofList] at hb hl
          obtain rfl : b = 0 := by omega
          interval_cases l <;> norm_num [Mat.ofList])
  refine ⟨pooled, hsome, ?_, ?_⟩ <;>
    rw [hentry 0 (by norm_num [Ten3.ofList])] <;>
    norm_num [Ten3.ofList, Mat.ofList, Finset.sum_range_succ]

/-- C8: for a row whose attention-mask entries are all 1, the pooled output
row equals the plain arithmetic mean of the L token-embedding vectors of
that row. -/
theorem c8_all_ones_row_is_mean (emb : Ten3 ℝ) (mask : Mat ℝ)
    (hB : mask.nrows = emb.nbatch) (hL : mask.ncols = emb.nseq)
    (hL1 : 1 ≤ emb.nseq) {b : ℕ} (hb : b < emb.nbatch)
    (hones : ∀ l < emb.nseq, mask.entry b l = 1) :
    ∃ pooled : Mat ℝ, mean_pooling emb mask = some pooled ∧
      ∀ d : ℕ, pooled.entry b d =
        (∑ l ∈ Finset.range emb.nseq, emb.entry b l d) / (emb.nseq : ℝ) := by
  refine ⟨_, mean_pooling_eq_of_shapes emb mask hB hL, ?_⟩
  intro d
  rw [mean_pooling_entry hB hL (mean_pooling_eq_of_shapes emb mask hB hL) hb d]
  have hnum : (∑ l ∈ Finset.range emb.nseq, emb.entry b l d * mask.entry b l)
      = ∑ l ∈ Finset.range emb.nseq, emb.entry b l d :=
    Finset.sum_congr rfl fun l hl => by
      rw [hones l (Finset.mem_range.mp hl), mul_one]
  have hden : (∑ l ∈ Finset.range emb.nseq, mask.entry b l) = (emb.nseq : ℝ) := by
    rw [Finset.sum_congr rfl fun l hl => hones l (Finset.mem_range.mp hl)]
    simp
  have hcast : (1 : ℝ) ≤ (emb.nseq : ℝ) := by exact_mod_cast hL1
  have heps : poolEps ℝ ≤ (emb.nseq : ℝ) := by
    have : poolEps ℝ ≤ 1 := by norm_num [poolEps]
    linarith
  rw [hnum, hden, max_eq_left heps]

/-- Witness for C8: the batch [[[1,0],[3,0]]] with all-ones mask [[1,1]]
pools to the plain mean [2, 0]. -/
theorem c8_all_ones_row_is_mean_witness :
    ∃ pooled : Mat ℝ,
      mean_pooling (Ten3.ofList [[[1,0],[3,0]]]) (Mat.ofList [[(1:ℝ),1]]) = some pooled ∧
      pooled.entry 0 0 = 2 ∧ pooled.entry 0 1 = 0 := by
  obtain ⟨pooled, hsome, hmean⟩ :=
    c8_all_ones_row_is_mean (Ten3.ofList [[[1,0],[3,0]]]) (Mat.ofList [[(1:ℝ),1]])
      rfl rfl (by norm_num [Ten3.ofList]) (show 0 < 1 by norm_num)
      (by intro l hl
          norm_num [Ten3.ofList] at hl
          interval_cases l <;> norm_num [Mat.ofList])
  refine ⟨pooled, hsome, ?_, ?_⟩ <;>
    rw [hmean] <;> norm_num [Ten3.ofList, Finset.sum_range_succ]

/-- C3: replacing the token embeddings at masked-out positions of a row (the
mask having {0,1} values and at least one zero there) never changes the
pooled output of that row. -/
theorem c3_masked_out_positions_no_influence (emb1 emb2 : Ten3 ℝ) (mask : Mat ℝ)
    (hb12 : emb1.nbatch = emb2.nbatch) (hl12 : emb1.nseq = emb2.nseq)
    (hB : mask.nrows = emb1.nbatch) (hL : mask.ncols = emb1.nseq)
    {b : ℕ} (hb : b < emb1.nbatch)
    (hvals : ∀ l < emb1.nseq, mask.entry b l = 0 ∨ mask.entry b l = 1)
    (hzero : ∃ l < emb1.nseq, mask.entry b l = 0)
    (hagree : ∀ l < emb1.nseq, mask.entry b l = 1 →
      ∀ d : ℕ, emb1.entry b l d = emb2.entry b l d) :
    ∃ p1 p2 : Mat ℝ,
      mean_pooling emb1 mask = some p1 ∧ mean_pooling emb2 mask = some p2 ∧
      ∀ d : ℕ, p1.entry b d = p2.entry b d := by
  have hB2 : mask.nrows = emb2.nbatch := hB.trans hb12
  have hL2 : mask.ncols = emb2.nseq := hL.trans hl12
  refine ⟨_, _, mean_pooling_eq_of_shapes emb1 mask hB hL,
    mean_pooling_eq_of_shapes emb2 mask hB2 hL2, ?_⟩
  intro d
  rw [mean_pooling_entry hB hL (mean_pooling_eq_of_shapes emb1 mask hB hL) hb d,
    mean_pooling_entry hB2 hL2 (mean_pooling_eq_of_shapes emb2 mask hB2 hL2)
      (hb12 ▸ hb) d, ← hl12]
  have hnum : (∑ l ∈ Finset.range emb1.nseq, emb1.entry b l d * mask.entry b l)
      = ∑ l ∈ Finset.range emb1.nseq, emb2.entry b l d * mask.entry b l := by
    refine Finset.sum_congr rfl fun l hl => ?_
    have hl' := Finset.mem_range.mp hl
    rcases hvals l hl' with h0 | h1
    · rw [h0, mul_zero, mul_zero]
    · rw [hagree l hl' h1 d]
  rw [hnum]

/-- Witness for C3: with mask [[1,0]], changing the masked-out second token's
embedding from [3,0] to [100,50] leaves the pooled row unchanged. -/
theorem c3_masked_out_positions_no_influence_witness :
    ∃ p1 p2 : Mat ℝ,
      mean_pooling (Ten3.ofList [[[1,0],[3,0]]]) (Mat.ofList [[(1:ℝ),0]]) = some p1 ∧
      mean_pooling (Ten3.ofList [[[1,0],[100,50]]]) (Mat.ofList [[(1:ℝ),0]]) = some p2 ∧
      ∀ d : ℕ, p1.entry 0 d = p2.entry 0 d := by
  exact c3_masked_out_positions_no_influence
    (Ten3.ofList [[[1,0],[3,0]]]) (Ten3.ofList [[[1,0],[100,50]]])
    (Mat.ofList [[(1:ℝ),0]]) rfl rfl rfl rfl (show 0 < 1 by norm_num)
    (by intro l hl
        norm_num [Ten3.ofList] at hl
        interval_cases l <;> norm_num [Mat.ofList])
    ⟨1, by norm_num [Ten3.ofList], by norm_num [Mat.ofList]⟩
    (by intro l hl h1 d
        norm_num [Ten3.ofList] at hl
        interval_cases l
        · norm_num [Ten3.ofList]
        · norm_num [Mat.ofList] at h1)

/-- The L2 norm of a row is nonnegative. -/
theorem l2norm_nonneg (v : ℕ → ℝ) (n : ℕ) : 0 ≤ l2norm v n :=
  Real.sqrt_nonneg _

/-- A row of L2 norm 0 has all in-range components 0. -/
theorem row_zero_of_l2norm_zero (v : ℕ → ℝ) (n : ℕ)
    (h : l2norm v n = 0) : ∀ d < n, v d = 0 := by
  intro d hd
  have hnn : (0:ℝ) ≤ ∑ i ∈ Finset.range n, v i ^ 2 :=
    Finset.sum_nonneg fun i _ => sq_nonneg _
  have hS : (∑ i ∈ Finset.range n, v i ^ 2) = 0 :=
    (Real.sqrt_eq_zero hnn).mp h
  have := (Finset.sum_eq_zero_iff_of_nonneg fun i _ => sq_nonneg (v i)).mp hS d
    (Finset.mem_range.mpr hd)
  exact pow_eq_zero_iff two_ne_zero |>.mp this

/-- Dividing every component of a row by a nonnegative constant divides its
L2 norm by that constant. -/
theorem l2norm_div_const (v : ℕ → ℝ) (n : ℕ) {c : ℝ} (hc : 0 ≤ c) :
    l2norm (fun d => v d / c) n = l2norm v n / c := by
  unfold l2norm
  rw [show (∑ d ∈ Finset.range n, (v d / c) ^ 2)
        = ∑ d ∈ Finset.range n, v d ^ 2 / c ^ 2 from
      Finset.sum_congr rfl fun d _ => div_pow _ _ _,
    ← Finset.sum_div,
    Real.sqrt_div (Finset.sum_nonneg fun d _ => sq_nonneg _), Real.sqrt_sq hc]

/-- A row whose L2 norm is at least the `eps` floor is rescaled by
`F_normalize` to a row of L2 norm exactly 1. -/
theorem l2norm_F_normalize_row (x : Mat ℝ) (b : ℕ)
    (h : normEps ≤ l2norm (x.entry b) x.ncols) :
    l2norm ((F_normalize x).entry b) (F_normalize x).ncols = 1 := by
  have hpos : 0 < l2norm (x.entry b) x.ncols :=
    lt_of_lt_of_le (by norm_num [normEps]) h
  show l2norm (fun d => x.entry b d / max (l2norm (x.entry b) x.ncols) normEps)
      x.ncols = 1
  rw [max_eq_left h, l2norm_div_const _ _ hpos.le, div_self (ne_of_gt hpos)]

/-- C2: on a fully padded row (attention mask all zeros), pooling divides
the zero numerator by the strictly positive floored denominator `1e-9`, and
normalization divides the zero row by the strictly positive floored norm
`1e-12`: the output row is exactly the zero vector, with no division by
zero (both denominators are positive reals) and no failure. -/
theorem c2_fully_padded_row_zero_output (emb : Ten3 ℝ) (mask : Mat ℝ)
    (hB : mask.nrows = emb.nbatch) (hL : mask.ncols = emb.nseq)
    {b : ℕ} (hb : b < emb.nbatch)
    (hzero : ∀ l < emb.nseq, mask.entry b l = 0) :
    ∃ pooled : Mat ℝ, mean_pooling emb mask = some pooled ∧
      (0:ℝ) < max (∑ l ∈ Finset.range emb.nseq, mask.entry b l) (1e-9 : ℝ) ∧
      (∀ d : ℕ, pooled.entry b d = 0) ∧
      (0:ℝ) < max (l2norm (pooled.entry b) pooled.ncols) normEps ∧
      (∀ d : ℕ, (F_normalize pooled).entry b d = 0) := by
  obtain ⟨pooled, hsome⟩ : ∃ p, mean_pooling emb mask = some p :=
    ⟨_, mean_pooling_eq_of_shapes emb mask hB hL⟩
  have hp0 : ∀ d : ℕ, pooled.entry b d = 0 := by
    intro d
    rw [mean_pooling_entry hB hL hsome hb d,
      Finset.sum_eq_zero fun l hl => by
        rw [hzero l (Finset.mem_range.mp hl), mul_zero],
      zero_div]
  refine ⟨pooled, hsome, ?_, hp0, ?_, ?_⟩
  · rw [Finset.sum_eq_zero fun l hl => hzero l (Finset.mem_range.mp hl)]
    norm_num
  · exact lt_of_lt_of_le (by norm_num [normEps]) (le_max_right _ _)
  · intro d
    show pooled.entry b d / max (l2norm (pooled.entry b) pooled.ncols) normEps = 0
    rw [hp0 d, zero_div]

/-- Witness for C2: the fully padded batch [[[5,5]]] with mask [[0]] pools
and normalizes to the zero row without failing. -/
theorem c2_fully_padded_row_zero_output_witness :
    ∃ pooled : Mat ℝ,
      mean_pooling (Ten3.ofList [[[5,5]]]) (Mat.ofList [[(0:ℝ)]]) = some pooled ∧
      (0:ℝ) < max (∑ l ∈ Finset.range 1, (Mat.ofList [[(0:ℝ)]]).entry 0 l) (1e-9 : ℝ) ∧
      (∀ d : ℕ, pooled.entry 0 d = 0) ∧
      (0:ℝ) < max (l2norm (pooled.entry 0) pooled.ncols) normEps ∧
      (∀ d : ℕ, (F_normalize pooled).entry 0 d = 0) :=
  c2_fully_padded_row_zero_output (Ten3.ofList [[[5,5]]]) (Mat.ofList [[(0:ℝ)]])
    rfl rfl (by norm_num [Ten3.ofList])
    (by intro l hl
        norm_num [Ten3.ofList] at hl
        subst hl
        norm_num [Mat.ofList])

/-- The single-entry matrix [[1e-30]] has row L2 norm 1e-30. -/
theorem tinyMat_norm :
    l2norm ((Mat.ofList [[(1e-30:ℝ)]]).entry 0) (Mat.ofList [[(1e-30:ℝ)]]).ncols
      = 1e-30 := by
  show Real.sqrt (∑ d ∈ Finset.range 1, ((Mat.ofList [[(1e-30:ℝ)]]).entry 0 d) ^ 2)
      = 1e-30
  rw [Finset.sum_range_one,
    show (Mat.ofList [[(1e-30:ℝ)]]).entry 0 0 = (1e-30:ℝ) from rfl,
    Real.sqrt_sq (by norm_num)]

/-- Normalizing [[1e-30]] once gives the entry 1e-18: the norm 1e-30 is
below the eps floor, so `F_normalize` divides by eps = 1e-12. -/
theorem tinyMat_normalized_entry :
    (F_normalize (Mat.ofList [[(1e-30:ℝ)]])).entry 0 0 = 1e-18 := by
  show (Mat.ofList [[(1e-30:ℝ)]]).entry 0 0 /
      max (l2norm ((Mat.ofList [[(1e-30:ℝ)]]).entry 0) (Mat.ofList [[(1e-30:ℝ)]]).ncols)
        normEps = 1e-18
  rw [tinyMat_norm, show (Mat.ofList [[(1e-30:ℝ)]]).entry 0 0 = (1e-30:ℝ) from rfl,
    max_eq_right (by norm_num [normEps] : (1e-30:ℝ) ≤ normEps)]
  norm_num [normEps]

/-- The row norm of `F_normalize [[1e-30]]` is 1e-18. -/
theorem tinyMat_normalized_norm :
    l2norm ((F_normalize (Mat.ofList [[(1e-30:ℝ)]])).entry 0)
      (F_normalize (Mat.ofList [[(1e-30:ℝ)]])).ncols = 1e-18 := by
  show Real.sqrt (∑ d ∈ Finset.range 1,
      ((F_normalize (Mat.ofList [[(1e-30:ℝ)]])).entry 0 d) ^ 2) = 1e-18
  rw [Finset.sum_range_one, tinyMat_normalized_entry, Real.sqrt_sq (by norm_num)]

/-- C4 counterexample: the pooled row [1e-30] has nonzero L2 norm, yet the
L2 norm of its normalized output is 1e-18, which is not within the 1e-6
tolerance of 1 (the claim fails for nonzero norms below the 1e-12 floor,
where `F.normalize` divides by eps instead of the norm). -/
theorem c4_counterexample :
    l2norm ((Mat.ofList [[(1e-30:ℝ)]]).entry 0) (Mat.ofList [[(1e-30:ℝ)]]).ncols ≠ 0 ∧
    l2norm ((F_normalize (Mat.ofList [[(1e-30:ℝ)]])).entry 0)
      (F_normalize (Mat.ofList [[(1e-30:ℝ)]])).ncols = 1e-18 ∧
    ¬ |(1e-18:ℝ) - 1| ≤ 1e-6 := by
  refine ⟨?_, tinyMat_normalized_norm, ?_⟩
  · rw [tinyMat_norm]; norm_num
  · rw [abs_of_nonpos (by norm_num)]; norm_num

/-- C4 amended: for every pooled row whose L2 norm is at least the eps
floor 1e-12, `F.normalize` divides the row by exactly its own L2 norm, and
the normalized row has L2 norm exactly 1. -/
theorem c4_unit_norm_above_eps (x : Mat ℝ) {b : ℕ}
    (h : normEps ≤ l2norm (x.entry b) x.ncols) :
    (∀ d : ℕ, (F_normalize x).entry b d
        = x.entry b d / l2norm (x.entry b) x.ncols) ∧
    l2norm ((F_normalize x).entry b) (F_normalize x).ncols = 1 := by
  refine ⟨?_, l2norm_F_normalize_row x b h⟩
  intro d
  show x.entry b d / max (l2norm (x.entry b) x.ncols) normEps = _
  rw [max_eq_left h]

/-- The matrix [[3,4]] has row L2 norm 5. -/
theorem mat34_norm :
    l2norm ((Mat.ofList [[(3:ℝ),4]]).entry 0) (Mat.ofList [[(3:ℝ),4]]).ncols = 5 := by
  show Real.sqrt (∑ d ∈ Finset.range 2, ((Mat.ofList [[(3:ℝ),4]]).entry 0 d) ^ 2) = 5
  rw [Finset.sum_range_succ, Finset.sum_range_one,
    show (Mat.ofList [[(3:ℝ),4]]).entry 0 0 = (3:ℝ) from rfl,
    show (Mat.ofList [[(3:ℝ),4]]).entry 0 1 = (4:ℝ) from rfl,
    show (3:ℝ) ^ 2 + (4:ℝ) ^ 2 = 5 ^ 2 by norm_num,
    Real.sqrt_sq (by norm_num)]

/-- Witness for C4's amended theorem: the row [3,4] has norm 5 ≥ eps, and
its normalization has L2 norm exactly 1. -/
theorem c4_unit_norm_above_eps_witness :
    normEps ≤ l2norm ((Mat.ofList [[(3:ℝ),4]]).entry 0) (Mat.ofList [[(3:ℝ),4]]).ncols ∧
    l2norm ((F_normalize (Mat.ofList [[(3:ℝ),4]])).entry 0)
      (F_normalize (Mat.ofList [[(3:ℝ),4]])).ncols = 1 := by
  have hle : normEps ≤ l2norm ((Mat.ofList [[(3:ℝ),4]]).entry 0)
      (Mat.ofList [[(3:ℝ),4]]).ncols := by
    rw [mat34_norm]; norm_num [normEps]
  exact ⟨hle, (c4_unit_norm_above_eps (Mat.ofList [[(3:ℝ),4]]) hle).2⟩

/-- C10 counterexample: normalizing [[1e-30]] once gives the entry 1e-18,
but normalizing twice gives 1e-6, so applying the normalization step twice
differs from applying it once. -/
theorem c10_counterexample :
    (F_normalize (F_normalize (Mat.ofList [[(1e-30:ℝ)]]))).entry 0 0 ≠
      (F_normalize (Mat.ofList [[(1e-30:ℝ)]])).entry 0 0 := by
  have hdouble : (F_normalize (F_normalize (Mat.ofList [[(1e-30:ℝ)]]))).entry 0 0
      = 1e-6 := by
    show (F_normalize (Mat.ofList [[(1e-30:ℝ)]])).entry 0 0 /
        max (l2norm ((F_normalize (Mat.ofList [[(1e-30:ℝ)]])).entry 0)
          (F_normalize (Mat.ofList [[(1e-30:ℝ)]])).ncols) normEps = 1e-6
    rw [tinyMat_normalized_norm, tinyMat_normalized_entry,
      max_eq_right (by norm_num [normEps] : (1e-18:ℝ) ≤ normEps)]
    norm_num [normEps]
  rw [hdouble, tinyMat_normalized_entry]
  norm_num

/-- C10 amended: normalization is idempotent on every row whose L2 norm is
either 0 or at least the eps floor 1e-12 (rows with a nonzero norm below
eps are rescaled again by a second application). -/
theorem c10_normalize_idempotent_row (x : Mat ℝ) {b : ℕ}
    (h : l2norm (x.entry b) x.ncols = 0 ∨ normEps ≤ l2norm (x.entry b) x.ncols) :
    ∀ d < x.ncols,
      (F_normalize (F_normalize x)).entry b d = (F_normalize x).entry b d := by
  intro d hd
  rcases h with h0 | hge
  · have hx0 : ∀ i < x.ncols, x.entry b i = 0 :=
      row_zero_of_l2norm_zero _ _ h0
    have hn0 : (F_normalize x).entry b d = 0 := by
      show x.entry b d / max (l2norm (x.entry b) x.ncols) normEps = 0
      rw [hx0 d hd, zero_div]
    show (F_normalize x).entry b d /
        max (l2norm ((F_normalize x).entry b) (F_normalize x).ncols) normEps
      = (F_normalize x).entry b d
    rw [hn0, zero_div]
  · have hone : l2norm ((F_normalize x).entry b) (F_normalize x).ncols = 1 :=
      l2norm_F_normalize_row x b hge
    show (F_normalize x).entry b d /
        max (l2norm ((F_normalize x).entry b) (F_normalize x).ncols) normEps
      = (F_normalize x).entry b d
    rw [hone, max_eq_left (by norm_num [normEps] : normEps ≤ (1:ℝ)), div_one]

/-- Witness for C10's amended theorem: normalizing [[3,4]] (row norm 5)
twice agrees with normalizing it once at entry (0,0). -/
theorem c10_normalize_idempotent_row_witness :
    (F_normalize (F_normalize (Mat.ofList [[(3:ℝ),4]]))).entry 0 0 =
      (F_normalize (Mat.ofList [[(3:ℝ),4]])).entry 0 0 :=
  c10_normalize_idempotent_row (Mat.ofList [[(3:ℝ),4]])
    (Or.inr (by rw [mat34_norm]; norm_num [normEps]))
    0 (by norm_num [Mat.ofList])

/-- C6 counterexample: a 2-row token-embedding batch against a 1-row
attention mask is a batch-size mismatch, yet `mean_pooling` does not fail:
`expand` broadcasts the size-1 mask dimension and pooling succeeds. -/
theorem c6_counterexample :
    (Mat.ofList [[(1:ℝ)]]).nrows ≠ (Ten3.ofList [[[(1:ℝ)]], [[2]]]).nbatch ∧
    ∃ p : Mat ℝ,
      mean_pooling (Ten3.ofList [[[(1:ℝ)]], [[2]]]) (Mat.ofList [[(1:ℝ)]]) = some p := by
  refine ⟨by norm_num [Mat.ofList, Ten3.ofList], ?_⟩
  unfold mean_pooling expandMask
  rw [if_pos ⟨Or.inr rfl, Or.inl rfl⟩]
  exact ⟨_, rfl⟩

/-- C6 amended: `mean_pooling` fails (the `expand` shape error, so no pooled
output is produced) exactly when the mask's batch size differs from the
embedding's and is not 1, or the mask's sequence length differs from the
embedding's and is not 1; a mismatched mask dimension equal to 1 is instead
broadcast over the batch. -/
theorem c6_shape_mismatch_fails (emb : Ten3 ℝ) (mask : Mat ℝ) :
    mean_pooling emb mask = none ↔
      ¬((mask.nrows = emb.nbatch ∨ mask.nrows = 1) ∧
        (mask.ncols = emb.nseq ∨ mask.ncols = 1)) := by
  unfold mean_pooling expandMask
  split_ifs with h <;> simp [h]

/-- C7 counterexample: the mask value 2 at position (0,0) lies outside
{0,1}, yet `mean_pooling` raises no error and uses it silently as a weight:
with embeddings [[[1],[0]]] and mask [[2,1]] the pooled entry is 2/3 (the
out-of-range weight enters both the numerator and the denominator), instead
of any InvalidMask failure. -/
theorem c7_counterexample :
    ¬((Mat.ofList [[(2:ℝ),1]]).entry 0 0 = 0 ∨
      (Mat.ofList [[(2:ℝ),1]]).entry 0 0 = 1) ∧
    ∃ p : Mat ℝ,
      mean_pooling (Ten3.ofList [[[(1:ℝ)],[0]]]) (Mat.ofList [[(2:ℝ),1]]) = some p ∧
      p.entry 0 0 = 2 / 3 := by
  refine ⟨by norm_num [Mat.ofList], _, mean_pooling_eq_of_shapes _ _ rfl rfl, ?_⟩
  rw [mean_pooling_entry rfl rfl (mean_pooling_eq_of_shapes _ _ rfl rfl)
    (show 0 < (Ten3.ofList [[[(1:ℝ)],[0]]]).nbatch by norm_num [Ten3.ofList]) 0]
  rw [show (∑ l ∈ Finset.range (Ten3.ofList [[[(1:ℝ)],[0]]]).nseq,
        (Ten3.ofList [[[(1:ℝ)],[0]]]).entry 0 l 0 * (Mat.ofList [[(2:ℝ),1]]).entry 0 l)
      = 2 by norm_num [Ten3.ofList, Mat.ofList, Finset.sum_range_succ]]
  rw [show (∑ l ∈ Finset.range (Ten3.ofList [[[(1:ℝ)],[0]]]).nseq,
        (Mat.ofList [[(2:ℝ),1]]).entry 0 l)
      = 3 by norm_num [Ten3.ofList, Mat.ofList, Finset.sum_range_succ]]
  rw [max_eq_left (by norm_num [poolEps] : poolEps ℝ ≤ 3)]

/-- C7 amended: `mean_pooling` performs no validation of the mask values:
for every mask whose shape matches the embedding's, whatever its values
(also outside {0,1}), pooling succeeds and uses each mask value directly as
the weight in the numerator and as a summand of the floored denominator. -/
theorem c7_no_mask_validation (emb : Ten3 ℝ) (mask : Mat ℝ)
    (hB : mask.nrows = emb.nbatch) (hL : mask.ncols = emb.nseq) :
    ∃ pooled : Mat ℝ, mean_pooling emb mask = some pooled ∧
      ∀ b < emb.nbatch, ∀ d : ℕ,
        pooled.entry b d =
          (∑ l ∈ Finset.range emb.nseq, emb.entry b l d * mask.entry b l) /
            max (∑ l ∈ Finset.range emb.nseq, mask.entry b l) (1e-9 : ℝ) := by
  refine ⟨_, mean_pooling_eq_of_shapes emb mask hB hL, ?_⟩
  intro b hb d
  simpa [poolEps] using
    mean_pooling_entry hB hL (mean_pooling_eq_of_shapes emb mask hB hL) hb d

/-- Witness for C7's amended theorem: the out-of-range mask [[2,1]] is
accepted and weights the pooled entry to 2/3. -/
theorem c7_no_mask_validation_witness :
    ∃ pooled : Mat ℝ,
      mean_pooling (Ten3.ofList [[[(1:ℝ)],[0]]]) (Mat.ofList [[(2:ℝ),1]]) = some pooled ∧
      pooled.entry 0 0 = 2 / 3 := by
  obtain ⟨pooled, hsome, hent⟩ :=
    c7_no_mask_validation (Ten3.ofList [[[(1:ℝ)],[0]]]) (Mat.ofList [[(2:ℝ),1]]) rfl rfl
  refine ⟨pooled, hsome, ?_⟩
  rw [hent 0 (by norm_num [Ten3.ofList]) 0]
  rw [show (∑ l ∈ Finset.range (Ten3.ofList [[[(1:ℝ)],[0]]]).nseq,
        (Ten3.ofList [[[(1:ℝ)],[0]]]).entry 0 l 0 * (Mat.ofList [[(2:ℝ),1]]).entry 0 l)
      = 2 by norm_num [Ten3.ofList, Mat.ofList, Finset.sum_range_succ]]
  rw [show (∑ l ∈ Finset.range (Ten3.ofList [[[(1:ℝ)],[0]]]).nseq,
        (Mat.ofList [[(2:ℝ),1]]).entry 0 l)
      = 3 by norm_num [Ten3.ofList, Mat.ofList, Finset.sum_range_succ]]
  rw [max_eq_left (by norm_num : (1e-9:ℝ) ≤ 3)]

/-- After removing every binding of `k`, looking up `k` finds nothing. -/
theorem lookup_filter_self (d : PyDict) (k : String) :
    (d.filter (fun p => p.1 != k)).lookup k = none := by
  induction d with
  | nil => rfl
  | cons hd tl ih =>
    obtain ⟨k0, v⟩ := hd
    by_cases h : k0 = k
    · simpa [List.filter_cons, h] using ih
    · have hbne : (k0 != k) = true := bne_iff_ne.mpr h
      have hbeq : (k == k0) = false := beq_eq_false_iff_ne.mpr (Ne.symm h)
      simp [List.filter_cons, List.lookup, hbne, hbeq, ih]

/-- Removing the bindings of `k` leaves the lookup of every other key
unchanged. -/
theorem lookup_filter_ne (d : PyDict) (k k' : String) (h : k' ≠ k) :
    (d.filter (fun p => p.1 != k)).lookup k' = d.lookup k' := by
  induction d with
  | nil => rfl
  | cons hd tl ih =>
    obtain ⟨k0, v⟩ := hd
    by_cases h0 : k0 = k
    · have hbne : (k0 != k) = false := by simp [h0]
      have hbeq : (k' == k0) = false :=
        beq_eq_false_iff_ne.mpr (by rw [h0]; exact h)
      simp [List.filter_cons, List.lookup, hbne, hbeq, ih]
    · have hbne : (k0 != k) = true := bne_iff_ne.mpr h0
      by_cases h1 : k' = k0
      · have hbeq : (k' == k0) = true := beq_iff_eq.mpr h1
        simp [List.filter_cons, List.lookup, hbne, hbeq]
      · have hbeq : (k' == k0) = false := beq_eq_false_iff_ne.mpr h1
        simp [List.filter_cons, List.lookup, hbne, hbeq, ih]

/-- `dictPop` on a dict that binds `k` returns the bound value and removes
the binding. -/
theorem dictPop_of_lookup_some (d : PyDict) (k : String) (dflt : PyVal)
    {v : PyVal} (h : d.lookup k = some v) :
    dictPop d k dflt = (v, d.filter (fun p => p.1 != k)) := by
  unfold dictPop
  rw [h]

/-- `dictPop` on a dict without `k` returns the default and leaves the dict
unchanged. -/
theorem dictPop_of_lookup_none (d : PyDict) (k : String) (dflt : PyVal)
    (h : d.lookup k = none) :
    dictPop d k dflt = (dflt, d) := by
  unfold dictPop
  rw [h]

/-- The dict state after `predict_fn` is exactly the state after the
initial `data.pop("inputs", data)`. -/
theorem predict_fn_state (tokenizer : PyVal → EncodedInput)
    (model : EncodedInput → Ten3 ℝ) (data : PyDict) :
    (predict_fn tokenizer model data).2
      = (dictPop data "inputs" (PyVal.dict data)).2 := rfl

/-- C9: `predict_fn` pops "inputs" from its caller-supplied dict. When the
key is present with value v, v becomes the sentences input and after the
call the dict no longer binds "inputs" while every other key looks up
unchanged; when the key is absent, the whole dict itself is the sentences
input and the dict is left unchanged. -/
theorem c9_predict_fn_pops_inputs (tokenizer : PyVal → EncodedInput)
    (model : EncodedInput → Ten3 ℝ) (data : PyDict) :
    (∀ v : PyVal, data.lookup "inputs" = some v →
      (dictPop data "inputs" (PyVal.dict data)).1 = v ∧
      (predict_fn tokenizer model data).2.lookup "inputs" = none ∧
      ∀ k : String, k ≠ "inputs" →
        (predict_fn tokenizer model data).2.lookup k = data.lookup k) ∧
    (data.lookup "inputs" = none →
      (dictPop data "inputs" (PyVal.dict data)).1 = PyVal.dict data ∧
      (predict_fn tokenizer model data).2 = data) := by
  constructor
  · intro v hv
    rw [predict_fn_state, dictPop_of_lookup_some data _ _ hv]
    exact ⟨rfl, lookup_filter_self data "inputs",
      fun k hk => lookup_filter_ne data "inputs" k hk⟩
  · intro hv
    rw [predict_fn_state, dictPop_of_lookup_none data _ _ hv]
    exact ⟨rfl, rfl⟩

/-- Witness for C9: popping the request \x7b"inputs": "hi", "color": "red"\x7d
yields the sentences "hi", removes "inputs" and keeps "color". -/
theorem c9_predict_fn_pops_inputs_witness :
    (dictPop [("inputs", PyVal.str "hi"), ("color", PyVal.str "red")] "inputs"
      (PyVal.dict [("inputs", PyVal.str "hi"), ("color", PyVal.str "red")])).1
      = PyVal.str "hi" ∧
    ((predict_fn (fun _ => EncodedInput.mk [[0]] (Mat.ofList [[(1:ℝ)]]))
        (fun _ => Ten3.ofList [[[(3:ℝ),4]]])
        [("inputs", PyVal.str "hi"), ("color", PyVal.str "red")]).2).lookup "inputs"
      = none ∧
    ((predict_fn (fun _ => EncodedInput.mk [[0]] (Mat.ofList [[(1:ℝ)]]))
        (fun _ => Ten3.ofList [[[(3:ℝ),4]]])
        [("inputs", PyVal.str "hi"), ("color", PyVal.str "red")]).2).lookup "color"
      = some (PyVal.str "red") := by
  obtain ⟨h1, h2, h3⟩ :=
    (c9_predict_fn_pops_inputs (fun _ => EncodedInput.mk [[0]] (Mat.ofList [[(1:ℝ)]]))
      (fun _ => Ten3.ofList [[[(3:ℝ),4]]])
      [("inputs", PyVal.str "hi"), ("color", PyVal.str "red")]).1
      (PyVal.str "hi") rfl
  refine ⟨h1, h2, ?_⟩
  rw [h3 "color" (by decide)]
  rfl

/-- C5: whenever the embedded pipeline succeeds — the attention mask expands
against the token embeddings and the pooled batch is nonempty — the response
payload of `predict_fn` is a dict with the single key "vectors" whose value
is exactly row 0 of the normalized pooled batch, serialized as its ncols
numbers; rows 1..B-1 are discarded, and row 0 of the normalized batch is
computed from row 0 of the pooled batch alone. -/
theorem c5_payload_is_first_row (tokenizer : PyVal → EncodedInput)
    (model : EncodedInput → Ten3 ℝ) (data : PyDict) {pooled : Mat ℝ}
    (hp : mean_pooling (model (tokenizer (dictPop data "inputs" (PyVal.dict data)).1))
        (tokenizer (dictPop data "inputs" (PyVal.dict data)).1).attention_mask
      = some pooled)
    (hrows : pooled.nrows ≠ 0) :
    (predict_fn tokenizer model data).1 =
      some (PyVal.dict [("vectors",
        PyVal.list ((List.range (F_normalize pooled).ncols).map
          (fun d => PyVal.real ((F_normalize pooled).entry 0 d))))]) ∧
    ∀ d : ℕ, (F_normalize pooled).entry 0 d =
      pooled.entry 0 d / max (l2norm (pooled.entry 0) pooled.ncols) normEps := by
  constructor
  · simp only [predict_fn, hp]
    rw [if_neg (show ¬(F_normalize pooled).nrows = 0 from hrows)]
  · intro d
    rfl

/-- Witness for C5: with a constant tokenizer/model pair producing the batch
[[[3,4]]] and mask [[1]], the payload is the single-key "vectors" dict
holding row 0 of the normalized batch. -/
theorem c5_payload_is_first_row_witness :
    ∃ pooled : Mat ℝ,
      mean_pooling (Ten3.ofList [[[(3:ℝ),4]]]) (Mat.ofList [[(1:ℝ)]]) = some pooled ∧
      pooled.nrows ≠ 0 ∧
      (predict_fn (fun _ => EncodedInput.mk [[0]] (Mat.ofList [[(1:ℝ)]]))
          (fun _ => Ten3.ofList [[[(3:ℝ),4]]]) []).1 =
        some (PyVal.dict [("vectors",
          PyVal.list ((List.range (F_normalize pooled).ncols).map
            (fun d => PyVal.real ((F_normalize pooled).entry 0 d))))]) := by
  refine ⟨_, mean_pooling_eq_of_shapes (Ten3.ofList [[[(3:ℝ),4]]])
    (Mat.ofList [[(1:ℝ)]]) rfl rfl, by norm_num [Ten3.ofList], ?_⟩
  exact (c5_payload_is_first_row
    (fun _ => EncodedInput.mk [[0]] (Mat.ofList [[(1:ℝ)]]))
    (fun _ => Ten3.ofList [[[(3:ℝ),4]]]) []
    (mean_pooling_eq_of_shapes (Ten3.ofList [[[(3:ℝ),4]]]) (Mat.ofList [[(1:ℝ)]]) rfl rfl)
    (by norm_num [Ten3.ofList])).1

end HuggingBooks
